import Mathlib

/-!
# axi4_lite_uart: verification of `sw/uart_example.c`

A shallow embedding of the example layer of the UART driver: the
interrupt-fed ring buffer (`uart_rx_callback` and the main loop of
`example_interrupt_driven_rx`), the formatting helpers `itoa_decimal` and
`utoa_hex`, and the threshold-batched transfer loop of
`example_threshold_usage`.

Conventions.  `uint32_t` values are natural numbers, and every `uint32_t`
addition is reduced modulo `2^32`.  `int32_t` values are integers, wrapped
into the two's complement range where the C code can overflow.  Characters
and bytes are their numeric codes.  A C array is a list; a store at index
`i` is `List.set`, a load is `List.getD _ i 0`.
-/

namespace UartExample

/-! ## Ring buffer (example 9) -/

/-- Error flags as read through `uart_get_errors` (the four fields used in
`example_error_handling`). -/
structure uart_errors_t where
  parity_error : Bool
  frame_error : Bool
  rx_overflow : Bool
  tx_overflow : Bool
deriving DecidableEq, Repr

/-- Modelled from the spec: `uart_handle_t` is declared in `uart.h`, which is
not part of the sources.  The spec's data model says the handle owns the
latched error flags; only that part of the handle is kept here. -/
structure uart_handle_t where
  errors : uart_errors_t
deriving DecidableEq, Repr

/-- The file-scope variables of example 9 (lines 309-312). -/
structure Globals where
  g_uart0 : uart_handle_t
  rx_buffer : List Nat
  rx_write_idx : Nat
  rx_read_idx : Nat
deriving DecidableEq, Repr

/-- The value of `sizeof(rx_buffer)`. -/
def RX_BUFFER_SIZE : Nat := 256

/-- The flags of a freshly zeroed handle. -/
def no_errors : uart_errors_t :=
  { parity_error := false, frame_error := false, rx_overflow := false, tx_overflow := false }

/-- The state at program start: statics are zero-initialised. -/
def initial_globals : Globals :=
  { g_uart0 := { errors := no_errors }
    rx_buffer := List.replicate 256 0
    rx_write_idx := 0
    rx_read_idx := 0 }

/-- The function `uart_rx_callback` (lines 315-323). -/
def uart_rx_callback (s : Globals) (data : Nat) : Globals :=
  let next_idx := (s.rx_write_idx + 1) % 4294967296 % RX_BUFFER_SIZE
  if next_idx ≠ s.rx_read_idx then
    { s with rx_buffer := s.rx_buffer.set s.rx_write_idx data
             rx_write_idx := next_idx }
  else
    s

/-- One pass of the main loop of `example_interrupt_driven_rx` (lines 347-358).
The second component is the byte handed to `uart_putc`, if any. -/
def example_interrupt_driven_rx_body (s : Globals) : Globals × Option Nat :=
  if s.rx_read_idx ≠ s.rx_write_idx then
    let data := s.rx_buffer.getD s.rx_read_idx 0
    ({ s with rx_read_idx := (s.rx_read_idx + 1) % 4294967296 % RX_BUFFER_SIZE }, some data)
  else
    (s, none)

/-- An action on the ring buffer: the interrupt delivers a byte, or the main
loop runs one pass. -/
inductive RingOp where
  | rx (data : Nat)
  | drain
deriving DecidableEq, Repr

/-- What has been observed along a run: the state, the bytes the consumer
took (in order), and the bytes delivered while the buffer was not full
(in order). -/
structure RingRun where
  state : Globals
  taken : List Nat
  accepted : List Nat
deriving DecidableEq, Repr

/-- Perform one action and record what it did. -/
def ring_step (t : RingRun) : RingOp → RingRun
  | RingOp.rx data =>
      { state := uart_rx_callback t.state data
        taken := t.taken
        accepted :=
          if (t.state.rx_write_idx + 1) % RX_BUFFER_SIZE ≠ t.state.rx_read_idx then
            t.accepted ++ [data]
          else t.accepted }
  | RingOp.drain =>
      { state := (example_interrupt_driven_rx_body t.state).1
        taken :=
          match (example_interrupt_driven_rx_body t.state).2 with
          | some b => t.taken ++ [b]
          | none => t.taken
        accepted := t.accepted }

/-- Run a finite interleaving of actions. -/
def ring_run (t : RingRun) (ops : List RingOp) : RingRun :=
  ops.foldl ring_step t

/-- A run that starts in state `s` with nothing observed yet. -/
def ring_start (s : Globals) : RingRun :=
  { state := s, taken := [], accepted := [] }

/-- Number of unread bytes: `(rx_write_idx - rx_read_idx) mod 256`. -/
def unread (s : Globals) : Nat :=
  (((s.rx_write_idx : Int) - (s.rx_read_idx : Int)) % 256).toNat

/-- The bytes stored between `rx_read_idx` and `rx_write_idx`, oldest first. -/
def stored (s : Globals) : List Nat :=
  (List.range (unread s)).map (fun k => s.rx_buffer.getD ((s.rx_read_idx + k) % 256) 0)

/-- The buffer-full test of the spec: `(write + 1) mod capacity == read`. -/
def ring_full (s : Globals) : Prop :=
  (s.rx_write_idx + 1) % 256 = s.rx_read_idx

instance (s : Globals) : Decidable (ring_full s) := by
  unfold ring_full; infer_instance

/-- Shape of the states the program can be in: a 256-byte array and two
indices inside it. -/
def ring_wf (s : Globals) : Prop :=
  s.rx_buffer.length = 256 ∧ s.rx_write_idx < 256 ∧ s.rx_read_idx < 256

/-- The byte `b` is stored by the callback: it lands at the old write index
and the write index moves on by one slot. -/
def callback_stores (s : Globals) (b : Nat) : Prop :=
  uart_rx_callback s b =
    { s with rx_buffer := s.rx_buffer.set s.rx_write_idx b
             rx_write_idx := (s.rx_write_idx + 1) % 256 }

instance (s : Globals) (b : Nat) : Decidable (callback_stores s b) := by
  unfold callback_stores; infer_instance

/-- A full buffer with a clean error latch: 255 unread bytes, write index 255,
read index 0. -/
def full_globals : Globals :=
  { g_uart0 := { errors := no_errors }
    rx_buffer := List.replicate 256 0
    rx_write_idx := 255
    rx_read_idx := 0 }

/-! ## Formatting helpers (lines 17-71)

The local array `temp` and the caller's buffer `str` are passed in with the
contents they happen to have; the result is `str` after the call.  The text
written is read back with `c_string`: the characters before the first zero
byte. -/

/-- An `int32_t` result reduced to the two's complement range.  The C standard
leaves signed overflow undefined; on the RV32 target `-value` is a `neg`
instruction, which wraps. -/
def wrap_int32 (x : Int) : Int := (x + 2147483648) % 4294967296 - 2147483648

/-- An `int` stored into a `char`: its low eight bits. -/
def to_char (x : Int) : Nat := (x % 256).toNat

/-- The `do ... while (value > 0)` loop of `itoa_decimal` (lines 32-35):
`temp[i++] = '0' + (value % 10); value /= 10;`.  C division and remainder
truncate toward zero.  Returns `temp` and `i`. -/
def itoa_decimal_loop (value : Int) (temp : List Nat) (i : Nat) : List Nat × Nat :=
  if h : 0 < value.tdiv 10 then
    itoa_decimal_loop (value.tdiv 10) (temp.set i (to_char (48 + value.tmod 10))) (i + 1)
  else
    (temp.set i (to_char (48 + value.tmod 10)), i + 1)
termination_by value.toNat
decreasing_by
  have hv : 0 ≤ value := by
    by_contra hneg
    have h2 : value = -(-value) := by omega
    rw [h2, Int.neg_tdiv, Int.tdiv_eq_ediv (by omega) (by decide)] at h
    omega
  rw [Int.tdiv_eq_ediv hv (by decide)] at h ⊢
  omega

/-- The loop `while (i > 0) str[j++] = temp[--i];` shared by `itoa_decimal`
(lines 44-46) and `utoa_hex` (lines 67-69).  Returns `str` and `j`. -/
def reverse_copy (temp : List Nat) : Nat → List Nat → Nat → List Nat × Nat
  | 0, str, j => (str, j)
  | i + 1, str, j => reverse_copy temp i (str.set j (temp.getD i 0)) (j + 1)

/-- The function `itoa_decimal` (lines 20-48); `'-'` is 45 and `'0'` is 48. -/
def itoa_decimal (value : Int) (temp str : List Nat) : List Nat :=
  let is_negative := decide (value < 0)
  let value := if value < 0 then wrap_int32 (-value) else value
  let (temp, i) := itoa_decimal_loop value temp 0
  let (temp, i) := if is_negative then (temp.set i 45, i + 1) else (temp, i)
  let (str, j) := reverse_copy temp i str 0
  str.set j 0

/-- The array `hex_chars[] = "0123456789ABCDEF"` (line 55), terminator included. -/
def hex_chars : List Nat :=
  [48, 49, 50, 51, 52, 53, 54, 55, 56, 57, 65, 66, 67, 68, 69, 70, 0]

/-- The `do ... while (value > 0)` loop of `utoa_hex` (lines 60-63):
`temp[i++] = hex_chars[value & 0xF]; value >>= 4;`.  Returns `temp` and `i`. -/
def utoa_hex_loop (value : Nat) (temp : List Nat) (i : Nat) : List Nat × Nat :=
  if h : 0 < value >>> 4 then
    utoa_hex_loop (value >>> 4) (temp.set i (hex_chars.getD (value &&& 0xF) 0)) (i + 1)
  else
    (temp.set i (hex_chars.getD (value &&& 0xF) 0), i + 1)
termination_by value
decreasing_by
  rw [Nat.shiftRight_eq_div_pow] at h ⊢
  omega

/-- The function `utoa_hex` (lines 53-71). -/
def utoa_hex (value : Nat) (temp str : List Nat) : List Nat :=
  let (temp, i) := utoa_hex_loop value temp 0
  let (str, j) := reverse_copy temp i str 0
  str.set j 0

/-- The C string held in a buffer: the characters before the first zero byte. -/
def c_string (buf : List Nat) : List Nat := buf.takeWhile (fun c => c != 0)

/-- Digits of `n` in base `base`, least significant first; zero is one digit. -/
def lsb_digits (base n : Nat) : List Nat :=
  if n = 0 then [0] else Nat.digits base n

/-- Value of an upper-case hexadecimal digit character. -/
def hex_digit_value (c : Nat) : Nat :=
  if 48 ≤ c ∧ c ≤ 57 then c - 48 else c - 55

/-- The characters `0`-`9` and `A`-`F`. -/
def is_hex_char (c : Nat) : Bool :=
  (decide (48 ≤ c) && decide (c ≤ 57)) || (decide (65 ≤ c) && decide (c ≤ 70))

/-- Read a non-empty string of upper-case hexadecimal digits, most significant first. -/
def parse_hex (cs : List Nat) : Option Nat :=
  if cs ≠ [] ∧ cs.all is_hex_char = true then
    some (cs.foldl (fun acc c => 16 * acc + hex_digit_value c) 0)
  else none

/-- The characters `0`-`9`. -/
def is_digit_char (c : Nat) : Bool :=
  decide (48 ≤ c) && decide (c ≤ 57)

/-- Read a string of decimal digits, most significant first. -/
def parse_digits (cs : List Nat) : Nat :=
  cs.foldl (fun acc c => 10 * acc + (c - 48)) 0

/-- Read a signed decimal: an optional `-` followed by at least one digit. -/
def parse_decimal (cs : List Nat) : Option Int :=
  if cs.head? = some 45 then
    if cs.tail ≠ [] ∧ cs.tail.all is_digit_char = true then
      some (-(parse_digits cs.tail : Int))
    else none
  else
    if cs ≠ [] ∧ cs.all is_digit_char = true then some (parse_digits cs : Int) else none

/-- Canonical decimal text: digits only after an optional `-`, no leading
zero except for the single digit `0`, and no `-0`. -/
def canonical_decimal (cs : List Nat) : Prop :=
  if cs.head? = some 45 then
    cs.tail ≠ [] ∧ cs.tail.all is_digit_char = true ∧ cs.tail.head? ≠ some 48
  else
    cs ≠ [] ∧ cs.all is_digit_char = true ∧ (cs.head? = some 48 → cs = [48])

instance (cs : List Nat) : Decidable (canonical_decimal cs) := by
  unfold canonical_decimal; infer_instance

/-- Lines 37-47 of `itoa_decimal` as a function of the loop's result `p`:
append the sign, reverse into `str`, terminate. -/
def sign_and_reverse (is_negative : Bool) (p : List Nat × Nat) (str : List Nat) : List Nat :=
  (reverse_copy (if is_negative = true then (p.1.set p.2 45, p.2 + 1) else p).1
      (if is_negative = true then (p.1.set p.2 45, p.2 + 1) else p).2 str 0).1.set
    (reverse_copy (if is_negative = true then (p.1.set p.2 45, p.2 + 1) else p).1
      (if is_negative = true then (p.1.set p.2 45, p.2 + 1) else p).2 str 0).2 0

/-- The decimal digit characters of `n`, most significant first. -/
def dec_chars (n : Nat) : List Nat :=
  ((lsb_digits 10 n).map (fun d => 48 + d)).reverse

/-! ## Threshold-batched transfer (example 11, lines 418-450)

The five driver functions called in the loop are declared in `uart.h` and
are not part of the sources, so what they return is an input: the loop is run
against an arbitrary sequence of integers, one per call, in call order.  A
result used as a condition is true when it is non-zero.  The loop is cut at
its driver calls: a state records which call is pending, and `example_threshold_usage_resume`
takes the value that call returned and runs the code up to the next call. -/

/-- The driver functions called inside the transfer loop of
`example_threshold_usage`; `uart_putc_nonblocking` carries the byte offered. -/
inductive DriverCall where
  | uart_tx_threshold_reached
  | uart_putc_nonblocking (data : Nat)
  | uart_rx_threshold_reached
  | uart_rx_fifo_empty
  | uart_getc_nonblocking
deriving DecidableEq, Repr

/-- The driver call the loop is waiting on, or `finished` once the outer
`while` has been left (line 452). -/
inductive Pending where
  | tx_threshold
  | putc (i : Nat)
  | rx_threshold
  | rx_empty
  | getc
  | finished
deriving DecidableEq, Repr

/-- Locals of `example_threshold_usage` (lines 418-421), the pending call, and
the log of driver calls made so far with the value each returned. -/
structure Transfer where
  tx_buffer : List Nat
  rx_buffer : List Nat
  tx_sent : Nat
  rx_received : Nat
  pending : Pending
  trace : List (DriverCall × Int)
deriving DecidableEq, Repr

/-- The test of the outer `while` (line 429). -/
def outer_test (s : Transfer) : Transfer :=
  if s.tx_sent < 64 then { s with pending := Pending.tx_threshold }
  else { s with pending := Pending.finished }

/-- The test of the `for` loop (line 433); when it fails control reaches the
`uart_rx_threshold_reached` call of line 441. -/
def for_test (i : Nat) (s : Transfer) : Transfer :=
  if i < 4 ∧ s.tx_sent < 64 then { s with pending := Pending.putc i }
  else { s with pending := Pending.rx_threshold }

/-- Continue from the pending driver call, which returned `r`, up to the next
driver call (lines 429-450). -/
def example_threshold_usage_resume (s : Transfer) (r : Int) : Transfer :=
  match s.pending with
  | Pending.tx_threshold =>
    let s1 := { s with trace := s.trace ++ [(DriverCall.uart_tx_threshold_reached, r)] }
    if r ≠ 0 then for_test 0 s1 else { s1 with pending := Pending.rx_threshold }
  | Pending.putc i =>
    let s1 := { s with
      trace := s.trace ++ [(DriverCall.uart_putc_nonblocking (s.tx_buffer.getD s.tx_sent 0), r)] }
    if r = 0 then for_test (i + 1) { s1 with tx_sent := (s1.tx_sent + 1) % 4294967296 }
    else for_test (i + 1) s1
  | Pending.rx_threshold =>
    let s1 := { s with trace := s.trace ++ [(DriverCall.uart_rx_threshold_reached, r)] }
    if r ≠ 0 then { s1 with pending := Pending.rx_empty } else outer_test s1
  | Pending.rx_empty =>
    let s1 := { s with trace := s.trace ++ [(DriverCall.uart_rx_fifo_empty, r)] }
    if r = 0 ∧ s1.rx_received < 64 then { s1 with pending := Pending.getc } else outer_test s1
  | Pending.getc =>
    let s1 := { s with trace := s.trace ++ [(DriverCall.uart_getc_nonblocking, r)] }
    if 0 ≤ r then
      { s1 with
        rx_buffer := s1.rx_buffer.set s1.rx_received (r % 256).toNat
        rx_received := (s1.rx_received + 1) % 4294967296
        pending := Pending.rx_empty }
    else { s1 with pending := Pending.rx_empty }
  | Pending.finished => s

/-- Entry into the transfer loop (lines 418-429): counters zeroed, `tx_buffer`
filled with `(uint8_t)i`, `rx_buffer` holding whatever the stack held. -/
def example_threshold_usage_entry (rx_buffer : List Nat) : Transfer :=
  outer_test
    { tx_buffer := (List.range 64).map (fun i => i % 256)
      rx_buffer := rx_buffer
      tx_sent := 0
      rx_received := 0
      pending := Pending.finished
      trace := [] }

/-- Run the loop against a finite sequence of driver results. -/
def example_threshold_usage_run (s : Transfer) (results : List Int) : Transfer :=
  results.foldl example_threshold_usage_resume s

/-- The transfer loop of `example_threshold_usage` from its entry, run against
the driver results `results`; `rx_buffer` is the initial content of the local
receive array. -/
def example_threshold_usage (rx_buffer : List Nat) (results : List Int) : Transfer :=
  example_threshold_usage_run (example_threshold_usage_entry rx_buffer) results

/-- The byte a logged call got accepted: `uart_putc_nonblocking` returning 0. -/
def accepted_byte (e : DriverCall × Int) : Option Nat :=
  match e.1 with
  | DriverCall.uart_putc_nonblocking b => if e.2 = 0 then some b else none
  | _ => none

/-- The bytes for which `uart_putc_nonblocking` returned 0, in call order. -/
def accepted_bytes (trace : List (DriverCall × Int)) : List Nat :=
  trace.filterMap accepted_byte

/-- Every `uart_putc_nonblocking` call in the log offers `tx_buffer[k]`, where
`k` is the number of successful puts before that call (counted from `k`). -/
def offers_in_order (tx_buffer : List Nat) : List (DriverCall × Int) → Nat → Prop
  | [], _ => True
  | e :: rest, k =>
    (∀ b, e.1 = DriverCall.uart_putc_nonblocking b → b = tx_buffer.getD k 0) ∧
    offers_in_order tx_buffer rest (k + (accepted_bytes [e]).length)

/-- Put attempts per pass: the running count since the last
`uart_tx_threshold_reached` call (one such call opens each pass of the outer
loop) and the largest count seen in any pass. -/
def put_attempts (trace : List (DriverCall × Int)) : Nat × Nat :=
  trace.foldl (fun acc e =>
    match e.1 with
    | DriverCall.uart_tx_threshold_reached => (0, acc.2)
    | DriverCall.uart_putc_nonblocking _ => (acc.1 + 1, max acc.2 (acc.1 + 1))
    | _ => acc) (0, 0)

/-- The contents of `tx_buffer` after the fill loop of lines 424-426. -/
def tx_pattern : List Nat := (List.range 64).map (fun i => i % 256)

/-- What holds of the counters and the log at every point of the transfer
loop, whatever call is pending. -/
structure TransferCore (s : Transfer) : Prop where
  buffer : s.tx_buffer = tx_pattern
  tx_le : s.tx_sent ≤ 64
  rx_le : s.rx_received ≤ 64
  accepted : accepted_bytes s.trace = s.tx_buffer.take s.tx_sent
  ordered : offers_in_order s.tx_buffer s.trace 0
  attempts : (put_attempts s.trace).1 ≤ 4 ∧ (put_attempts s.trace).2 ≤ 4

/-- The loop invariant: the core facts plus what the pending call implies. -/
structure TransferInv (s : Transfer) : Prop where
  core : TransferCore s
  at_putc : ∀ i, s.pending = Pending.putc i →
    (put_attempts s.trace).1 = i ∧ i < 4 ∧ s.tx_sent < 64
  at_getc : s.pending = Pending.getc → s.rx_received < 64
  at_end : s.pending = Pending.finished → s.tx_sent = 64

/-! ## Ring buffer: proofs -/

theorem next_idx_eq (w : Nat) : (w + 1) % 4294967296 % RX_BUFFER_SIZE = (w + 1) % 256 := by
  unfold RX_BUFFER_SIZE; omega

theorem uart_rx_callback_wf (s : Globals) (b : Nat) (h : ring_wf s) :
    ring_wf (uart_rx_callback s b) := by
  obtain ⟨hl, hw, hr⟩ := h
  unfold uart_rx_callback
  simp only [next_idx_eq]
  split
  · refine ⟨?_, ?_, hr⟩
    · simpa using hl
    · exact Nat.mod_lt _ (by decide)
  · exact ⟨hl, hw, hr⟩

theorem body_wf (s : Globals) (h : ring_wf s) :
    ring_wf (example_interrupt_driven_rx_body s).1 := by
  obtain ⟨hl, hw, hr⟩ := h
  unfold example_interrupt_driven_rx_body
  simp only [next_idx_eq]
  split
  · exact ⟨hl, hw, Nat.mod_lt _ (by decide)⟩
  · exact ⟨hl, hw, hr⟩

theorem ring_step_wf (t : RingRun) (op : RingOp) (h : ring_wf t.state) :
    ring_wf (ring_step t op).state := by
  cases op with
  | rx b => exact uart_rx_callback_wf _ _ h
  | drain => exact body_wf _ h

theorem ring_run_wf (ops : List RingOp) (t : RingRun) (h : ring_wf t.state) :
    ring_wf (ring_run t ops).state := by
  induction ops generalizing t with
  | nil => exact h
  | cons op ops ih => exact ih _ (ring_step_wf t op h)

theorem initial_wf : ring_wf initial_globals := by
  exact ⟨List.length_replicate 256 0, by decide, by decide⟩

theorem unread_callback (s : Globals) (b : Nat) (h : ring_wf s) (hnf : ¬ ring_full s) :
    unread (uart_rx_callback s b) = unread s + 1 := by
  obtain ⟨_, hw, hr⟩ := h
  unfold ring_full at hnf
  have hne : ¬ (s.rx_write_idx + 1) % 256 = s.rx_read_idx := hnf
  simp only [uart_rx_callback, next_idx_eq, ne_eq, hne, not_false_eq_true, if_true, unread]
  omega

theorem stored_callback (s : Globals) (b : Nat) (h : ring_wf s) (hnf : ¬ ring_full s) :
    stored (uart_rx_callback s b) = stored s ++ [b] := by
  have hu := unread_callback s b h hnf
  obtain ⟨hl, hw, hr⟩ := h
  have hne : ¬ (s.rx_write_idx + 1) % 256 = s.rx_read_idx := hnf
  unfold stored
  rw [hu, List.range_succ, List.map_append]
  have hst : (uart_rx_callback s b).rx_buffer = s.rx_buffer.set s.rx_write_idx b := by
    simp only [uart_rx_callback, next_idx_eq, ne_eq, hne, not_false_eq_true, if_true]
  have hrd : (uart_rx_callback s b).rx_read_idx = s.rx_read_idx := by
    simp only [uart_rx_callback, next_idx_eq, ne_eq, hne, not_false_eq_true, if_true]
  rw [hst, hrd]
  congr 1
  · apply List.map_congr_left
    intro k hk
    have hk' : k < unread s := List.mem_range.mp hk
    have hidx : (s.rx_read_idx + k) % 256 ≠ s.rx_write_idx := by
      unfold unread at hk'
      omega
    simp only [List.getD_eq_getElem?_getD]
    rw [List.getElem?_set_ne (Ne.symm hidx)]
  · have hidx : (s.rx_read_idx + unread s) % 256 = s.rx_write_idx := by
      unfold unread
      omega
    simp only [List.map_cons, List.map_nil, hidx, List.getD_eq_getElem?_getD]
    rw [List.getElem?_set_self (by omega)]
    rfl

theorem callback_full (s : Globals) (b : Nat) (hf : ring_full s) :
    uart_rx_callback s b = s := by
  have he : (s.rx_write_idx + 1) % 256 = s.rx_read_idx := hf
  simp only [uart_rx_callback, next_idx_eq, ne_eq, he, not_true_eq_false, if_false]

theorem body_empty (s : Globals) (he : s.rx_read_idx = s.rx_write_idx) :
    example_interrupt_driven_rx_body s = (s, none) := by
  simp only [example_interrupt_driven_rx_body, ne_eq, he, not_true_eq_false, if_false]

theorem body_nonempty (s : Globals) (hne : s.rx_read_idx ≠ s.rx_write_idx) :
    example_interrupt_driven_rx_body s =
      ({ s with rx_read_idx := (s.rx_read_idx + 1) % 256 },
        some (s.rx_buffer.getD s.rx_read_idx 0)) := by
  simp only [example_interrupt_driven_rx_body, next_idx_eq, ne_eq, hne, not_false_eq_true,
    if_true]

theorem stored_body (s : Globals) (h : ring_wf s) (hne : s.rx_read_idx ≠ s.rx_write_idx) :
    stored s =
      s.rx_buffer.getD s.rx_read_idx 0 :: stored (example_interrupt_driven_rx_body s).1 := by
  obtain ⟨hl, hw, hr⟩ := h
  rw [body_nonempty s hne]
  have hu : unread s =
      unread { s with rx_read_idx := (s.rx_read_idx + 1) % 256 } + 1 := by
    simp only [unread]
    omega
  unfold stored
  rw [hu, List.range_succ_eq_map, List.map_cons, List.map_map]
  congr 1
  · simp only [Nat.add_zero, Nat.mod_eq_of_lt hr]
  · apply List.map_congr_left
    intro k _
    have hidx : (s.rx_read_idx + (k + 1)) % 256 = ((s.rx_read_idx + 1) % 256 + k) % 256 := by
      omega
    simp only [Function.comp_apply, Nat.succ_eq_add_one, hidx]

theorem ring_step_fifo (t : RingRun) (op : RingOp) (h : ring_wf t.state)
    (hinv : t.taken ++ stored t.state = t.accepted) :
    (ring_step t op).taken ++ stored (ring_step t op).state = (ring_step t op).accepted := by
  cases op with
  | rx b =>
    by_cases hf : ring_full t.state
    · have he : (t.state.rx_write_idx + 1) % 256 = t.state.rx_read_idx := hf
      simp only [ring_step, callback_full _ _ hf, RX_BUFFER_SIZE, ne_eq, he, not_true_eq_false,
        if_false]
      exact hinv
    · have hne : ¬ (t.state.rx_write_idx + 1) % 256 = t.state.rx_read_idx := hf
      simp only [ring_step, stored_callback _ _ h hf, RX_BUFFER_SIZE, ne_eq, hne,
        not_false_eq_true, if_true]
      rw [← List.append_assoc, hinv]
  | drain =>
    by_cases he : t.state.rx_read_idx = t.state.rx_write_idx
    · simp only [ring_step, body_empty _ he]
      exact hinv
    · have hs := stored_body t.state h he
      rw [hs] at hinv
      rw [body_nonempty _ he] at hinv
      simp only [ring_step, body_nonempty _ he, List.append_assoc, List.singleton_append]
      exact hinv

theorem ring_run_fifo (ops : List RingOp) (t : RingRun) (h : ring_wf t.state)
    (hinv : t.taken ++ stored t.state = t.accepted) :
    (ring_run t ops).taken ++ stored (ring_run t ops).state = (ring_run t ops).accepted := by
  induction ops generalizing t with
  | nil => exact hinv
  | cons op ops ih => exact ih _ (ring_step_wf t op h) (ring_step_fifo t op h hinv)

theorem stored_empty (s : Globals) (he : s.rx_write_idx = s.rx_read_idx) : stored s = [] := by
  simp [stored, unread, he]

theorem ring_run_append (t : RingRun) (xs ys : List RingOp) :
    ring_run t (xs ++ ys) = ring_run (ring_run t xs) ys := by
  simp only [ring_run, List.foldl_append]

theorem callback_stores_iff (s : Globals) (b : Nat) (h : ring_wf s) :
    callback_stores s b ↔ unread s < 255 := by
  obtain ⟨hl, hw, hr⟩ := h
  unfold callback_stores
  by_cases hf : (s.rx_write_idx + 1) % 256 = s.rx_read_idx
  · rw [callback_full s b hf]
    constructor
    · intro h
      have h2 := congrArg Globals.rx_write_idx h
      simp only at h2
      omega
    · intro h
      unfold unread at h
      omega
  · constructor
    · intro _
      unfold unread
      omega
    · intro _
      simp only [uart_rx_callback, next_idx_eq, ne_eq, hf, not_false_eq_true, if_true]

theorem ring_full_iff (s : Globals) (h : ring_wf s) : ring_full s ↔ unread s = 255 := by
  obtain ⟨hl, hw, hr⟩ := h
  unfold ring_full unread
  omega

theorem rx_only_accepted (bs : List Nat) (t : RingRun) (h : ring_wf t.state)
    (hr : t.state.rx_read_idx = 0) :
    (ring_run t (bs.map RingOp.rx)).accepted =
      t.accepted ++ bs.take (255 - t.state.rx_write_idx) := by
  induction bs generalizing t with
  | nil => simp [ring_run]
  | cons b bs ih =>
    obtain ⟨hl, hw, _⟩ := h
    have hwf : ring_wf (ring_step t (RingOp.rx b)).state :=
      ring_step_wf t _ ⟨hl, hw, by omega⟩
    have hr' : (ring_step t (RingOp.rx b)).state.rx_read_idx = 0 := by
      simp only [ring_step, uart_rx_callback]
      split <;> simp [hr]
    have := ih (ring_step t (RingOp.rx b)) hwf hr'
    simp only [List.map_cons, ring_run, List.foldl_cons] at this ⊢
    rw [this]
    by_cases hf : (t.state.rx_write_idx + 1) % 256 = t.state.rx_read_idx
    · have hw255 : t.state.rx_write_idx = 255 := by omega
      simp only [ring_step, callback_full _ _ hf, RX_BUFFER_SIZE, ne_eq, hf, not_true_eq_false,
        if_false]
      rw [hw255]
      rfl
    · have hlt : t.state.rx_write_idx < 255 := by omega
      have hnw : (uart_rx_callback t.state b).rx_write_idx = t.state.rx_write_idx + 1 := by
        simp only [uart_rx_callback, next_idx_eq, ne_eq, hf, not_false_eq_true, if_true]
        omega
      have hk : 255 - t.state.rx_write_idx = (255 - (t.state.rx_write_idx + 1)) + 1 := by omega
      simp only [ring_step, RX_BUFFER_SIZE, ne_eq, hf, not_false_eq_true, if_true, hnw]
      rw [hk, List.take_succ_cons, List.append_assoc, List.singleton_append]

/-- C1: starting from an empty ring buffer (both indices 0), after every finite
interleaving of `uart_rx_callback` calls and main-loop passes, the bytes the
consumer took followed by the bytes still stored between the read and the write
index are exactly the accepted bytes, in order: none duplicated, lost or
reordered. -/
theorem ring_buffer_fifo (s : Globals) (ops : List RingOp)
    (hlen : s.rx_buffer.length = 256)
    (hw : s.rx_write_idx = 0) (hr : s.rx_read_idx = 0) :
    (ring_run (ring_start s) ops).taken ++ stored (ring_run (ring_start s) ops).state =
      (ring_run (ring_start s) ops).accepted := by
  apply ring_run_fifo
  · exact ⟨hlen, by simp [ring_start, hw], by simp [ring_start, hr]⟩
  · simp [ring_start, stored_empty s (hw.trans hr.symm)]

theorem ring_buffer_fifo_witness :
    initial_globals.rx_buffer.length = 256 ∧
    initial_globals.rx_write_idx = 0 ∧ initial_globals.rx_read_idx = 0 ∧
    (ring_run (ring_start initial_globals)
        [RingOp.rx 65, RingOp.rx 66, RingOp.drain, RingOp.rx 67]).taken ++
      stored (ring_run (ring_start initial_globals)
        [RingOp.rx 65, RingOp.rx 66, RingOp.drain, RingOp.rx 67]).state =
      (ring_run (ring_start initial_globals)
        [RingOp.rx 65, RingOp.rx 66, RingOp.drain, RingOp.rx 67]).accepted :=
  ⟨initial_wf.1, rfl, rfl,
    ring_buffer_fifo initial_globals _ initial_wf.1 rfl rfl⟩

/-- C2: in every state reachable from the empty buffer the number of unread
bytes is at most 255 and counts the accepted bytes not yet taken; the buffer is
full exactly when 255 bytes are unread;
`uart_rx_callback` stores its byte if and only if fewer than 255 bytes are
unread; and with no drain exactly the first 255 delivered bytes are accepted. -/
theorem ring_one_slot_sacrificed (s : Globals) (ops : List RingOp)
    (hlen : s.rx_buffer.length = 256)
    (hw : s.rx_write_idx = 0) (hr : s.rx_read_idx = 0) :
    unread (ring_run (ring_start s) ops).state ≤ 255 ∧
    (ring_run (ring_start s) ops).accepted.length =
      (ring_run (ring_start s) ops).taken.length +
        unread (ring_run (ring_start s) ops).state ∧
    (ring_full (ring_run (ring_start s) ops).state ↔
      unread (ring_run (ring_start s) ops).state = 255) ∧
    (∀ b, callback_stores (ring_run (ring_start s) ops).state b ↔
      unread (ring_run (ring_start s) ops).state < 255) ∧
    (∀ bs : List Nat,
      (ring_run (ring_start s) (bs.map RingOp.rx)).accepted = bs.take 255) := by
  have h0 : ring_wf (ring_start s).state :=
    ⟨hlen, by simp [ring_start, hw], by simp [ring_start, hr]⟩
  have hwf := ring_run_wf ops (ring_start s) h0
  have hfifo := ring_run_fifo ops (ring_start s) h0
    (by simp [ring_start, stored_empty s (hw.trans hr.symm)])
  refine ⟨?_, ?_, ring_full_iff _ hwf, fun b => callback_stores_iff _ b hwf, ?_⟩
  · unfold unread
    omega
  · rw [← hfifo, List.length_append]
    simp [stored]
  · intro bs
    have := rx_only_accepted bs (ring_start s) h0 hr
    simpa [ring_start, hw] using this

theorem ring_one_slot_sacrificed_witness :
    initial_globals.rx_buffer.length = 256 ∧
    initial_globals.rx_write_idx = 0 ∧ initial_globals.rx_read_idx = 0 ∧
    unread (ring_run (ring_start initial_globals) [RingOp.rx 65, RingOp.drain]).state ≤ 255 ∧
    (ring_run (ring_start initial_globals) [RingOp.rx 65, RingOp.drain]).accepted.length =
      (ring_run (ring_start initial_globals) [RingOp.rx 65, RingOp.drain]).taken.length +
        unread (ring_run (ring_start initial_globals) [RingOp.rx 65, RingOp.drain]).state ∧
    (ring_full (ring_run (ring_start initial_globals) [RingOp.rx 65, RingOp.drain]).state ↔
      unread (ring_run (ring_start initial_globals) [RingOp.rx 65, RingOp.drain]).state = 255) ∧
    (∀ b, callback_stores
        (ring_run (ring_start initial_globals) [RingOp.rx 65, RingOp.drain]).state b ↔
      unread (ring_run (ring_start initial_globals) [RingOp.rx 65, RingOp.drain]).state < 255) ∧
    (∀ bs : List Nat,
      (ring_run (ring_start initial_globals) (bs.map RingOp.rx)).accepted = bs.take 255) :=
  ⟨initial_wf.1, rfl, rfl,
    ring_one_slot_sacrificed initial_globals [RingOp.rx 65, RingOp.drain] initial_wf.1 rfl rfl⟩

/-- C3: on a full buffer `uart_rx_callback` drops the new byte and leaves the
whole state (array, write index, read index) as it was; on a buffer that is
not full it stores the byte at the old write index, moves the write index to
`(rx_write_idx + 1) mod 256`, and touches nothing else. -/
theorem uart_rx_callback_drop_or_store (s : Globals) (b : Nat) :
    (ring_full s → uart_rx_callback s b = s) ∧
    (¬ ring_full s →
      (uart_rx_callback s b).rx_buffer = s.rx_buffer.set s.rx_write_idx b ∧
      (s.rx_write_idx < s.rx_buffer.length →
        (uart_rx_callback s b).rx_buffer.getD s.rx_write_idx 0 = b) ∧
      (∀ k, k ≠ s.rx_write_idx →
        (uart_rx_callback s b).rx_buffer.getD k 0 = s.rx_buffer.getD k 0) ∧
      (uart_rx_callback s b).rx_write_idx = (s.rx_write_idx + 1) % 256 ∧
      (uart_rx_callback s b).rx_read_idx = s.rx_read_idx) := by
  refine ⟨callback_full s b, ?_⟩
  intro hnf
  have hne : ¬ (s.rx_write_idx + 1) % 256 = s.rx_read_idx := hnf
  have hst : uart_rx_callback s b =
      { s with rx_buffer := s.rx_buffer.set s.rx_write_idx b
               rx_write_idx := (s.rx_write_idx + 1) % 256 } := by
    simp only [uart_rx_callback, next_idx_eq, ne_eq, hne, not_false_eq_true, if_true]
  rw [hst]
  refine ⟨rfl, ?_, ?_, rfl, rfl⟩
  · intro hlt
    simp only [List.getD_eq_getElem?_getD]
    rw [List.getElem?_set_self hlt]
    rfl
  · intro k hk
    simp only [List.getD_eq_getElem?_getD]
    rw [List.getElem?_set_ne (Ne.symm hk)]

theorem uart_rx_callback_drop_or_store_witness :
    ring_full full_globals ∧ uart_rx_callback full_globals 65 = full_globals ∧
    ¬ ring_full initial_globals ∧
    (uart_rx_callback initial_globals 65).rx_buffer =
      initial_globals.rx_buffer.set initial_globals.rx_write_idx 65 ∧
    (uart_rx_callback initial_globals 65).rx_buffer.getD initial_globals.rx_write_idx 0 = 65 ∧
    (uart_rx_callback initial_globals 65).rx_write_idx =
      (initial_globals.rx_write_idx + 1) % 256 ∧
    (uart_rx_callback initial_globals 65).rx_read_idx = initial_globals.rx_read_idx :=
  ⟨by decide,
    (uart_rx_callback_drop_or_store full_globals 65).1 (by decide),
    by decide,
    ((uart_rx_callback_drop_or_store initial_globals 65).2 (by decide)).1,
    ((uart_rx_callback_drop_or_store initial_globals 65).2 (by decide)).2.1
      (Nat.lt_of_lt_of_eq (by decide : 0 < 256) initial_wf.1.symm),
    ((uart_rx_callback_drop_or_store initial_globals 65).2 (by decide)).2.2.2.1,
    ((uart_rx_callback_drop_or_store initial_globals 65).2 (by decide)).2.2.2.2⟩

/-- C4: `uart_rx_callback` never changes `rx_read_idx` and either leaves
`rx_write_idx` alone or advances it to `(rx_write_idx + 1) mod 256`; a pass of
the main loop never changes `rx_write_idx` or the array and either leaves
`rx_read_idx` alone or advances it to `(rx_read_idx + 1) mod 256`. -/
theorem single_writer_per_index (s : Globals) (b : Nat) :
    (uart_rx_callback s b).rx_read_idx = s.rx_read_idx ∧
    ((uart_rx_callback s b).rx_write_idx = s.rx_write_idx ∨
      (uart_rx_callback s b).rx_write_idx = (s.rx_write_idx + 1) % 256) ∧
    (example_interrupt_driven_rx_body s).1.rx_write_idx = s.rx_write_idx ∧
    (example_interrupt_driven_rx_body s).1.rx_buffer = s.rx_buffer ∧
    ((example_interrupt_driven_rx_body s).1.rx_read_idx = s.rx_read_idx ∨
      (example_interrupt_driven_rx_body s).1.rx_read_idx = (s.rx_read_idx + 1) % 256) := by
  refine ⟨?_, ?_, ?_, ?_, ?_⟩
  · simp only [uart_rx_callback]
    split <;> rfl
  · simp only [uart_rx_callback, next_idx_eq]
    split
    · exact Or.inr rfl
    · exact Or.inl rfl
  · unfold example_interrupt_driven_rx_body
    split <;> rfl
  · unfold example_interrupt_driven_rx_body
    split <;> rfl
  · simp only [example_interrupt_driven_rx_body, next_idx_eq]
    split
    · exact Or.inr rfl
    · exact Or.inl rfl

/-- C5 as stated fails: on a full buffer with a clean error latch the callback
drops the byte and the `rx_overflow` flag is still clear afterwards. -/
theorem rx_overflow_not_set :
    ring_full full_globals ∧
    full_globals.g_uart0.errors.rx_overflow = false ∧
    uart_rx_callback full_globals 65 = full_globals ∧
    (uart_rx_callback full_globals 65).g_uart0.errors.rx_overflow = false ∧
    ¬ (∀ (s : Globals) (b : Nat), ring_full s →
        (uart_rx_callback s b).g_uart0.errors.rx_overflow = true) := by
  refine ⟨by decide, rfl, callback_full _ _ (by decide), ?_, ?_⟩
  · rw [callback_full _ _ (by decide)]
    rfl
  · intro h
    have h1 := h full_globals 65 (by decide)
    rw [callback_full _ _ (by decide)] at h1
    exact absurd h1 (by decide)

/-- C5 amended: `uart_rx_callback` never touches the handle, so the error
flags after the call are the flags before it; when the buffer is full the
byte is dropped and nothing at all changes. -/
theorem uart_rx_callback_keeps_error_flags (s : Globals) (b : Nat) :
    (uart_rx_callback s b).g_uart0 = s.g_uart0 ∧
    (uart_rx_callback s b).g_uart0.errors.rx_overflow = s.g_uart0.errors.rx_overflow ∧
    (ring_full s → uart_rx_callback s b = s) := by
  have h : (uart_rx_callback s b).g_uart0 = s.g_uart0 := by
    simp only [uart_rx_callback]
    split <;> rfl
  exact ⟨h, by rw [h], callback_full s b⟩

theorem uart_rx_callback_keeps_error_flags_witness :
    ring_full full_globals ∧
    (uart_rx_callback full_globals 65).g_uart0 = full_globals.g_uart0 ∧
    (uart_rx_callback full_globals 65).g_uart0.errors.rx_overflow =
      full_globals.g_uart0.errors.rx_overflow ∧
    uart_rx_callback full_globals 65 = full_globals :=
  ⟨by decide,
    (uart_rx_callback_keeps_error_flags full_globals 65).1,
    (uart_rx_callback_keeps_error_flags full_globals 65).2.1,
    (uart_rx_callback_keeps_error_flags full_globals 65).2.2 (by decide)⟩

/-- C9: in every state reachable from an empty buffer by callbacks and
main-loop passes, both indices are below 256 and hence inside the
256-element array. -/
theorem indices_in_range (s : Globals) (ops : List RingOp)
    (hlen : s.rx_buffer.length = 256)
    (hw : s.rx_write_idx = 0) (hr : s.rx_read_idx = 0) :
    (ring_run (ring_start s) ops).state.rx_write_idx < 256 ∧
    (ring_run (ring_start s) ops).state.rx_read_idx < 256 ∧
    (ring_run (ring_start s) ops).state.rx_buffer.length = 256 ∧
    (ring_run (ring_start s) ops).state.rx_write_idx <
      (ring_run (ring_start s) ops).state.rx_buffer.length ∧
    (ring_run (ring_start s) ops).state.rx_read_idx <
      (ring_run (ring_start s) ops).state.rx_buffer.length := by
  have h0 : ring_wf (ring_start s).state :=
    ⟨hlen, by simp [ring_start, hw], by simp [ring_start, hr]⟩
  obtain ⟨hl, h1, h2⟩ := ring_run_wf ops (ring_start s) h0
  exact ⟨h1, h2, hl, by omega, by omega⟩

theorem indices_in_range_witness :
    initial_globals.rx_buffer.length = 256 ∧
    initial_globals.rx_write_idx = 0 ∧ initial_globals.rx_read_idx = 0 ∧
    (ring_run (ring_start initial_globals) [RingOp.rx 1, RingOp.drain, RingOp.drain]
      ).state.rx_write_idx < 256 ∧
    (ring_run (ring_start initial_globals) [RingOp.rx 1, RingOp.drain, RingOp.drain]
      ).state.rx_read_idx < 256 :=
  ⟨initial_wf.1, rfl, rfl,
    (indices_in_range initial_globals [RingOp.rx 1, RingOp.drain, RingOp.drain]
      initial_wf.1 rfl rfl).1,
    (indices_in_range initial_globals [RingOp.rx 1, RingOp.drain, RingOp.drain]
      initial_wf.1 rfl rfl).2.1⟩

theorem rx_zero_run (n : Nat) (hn : n ≤ 255) :
    (ring_run (ring_start initial_globals) (List.replicate n (RingOp.rx 0))).state =
      { initial_globals with rx_write_idx := n } := by
  induction n with
  | zero => rfl
  | succ n ih =>
    have ih' := ih (by omega)
    have hne : ¬ (n + 1) % 256 = 0 := by omega
    have hmod : (n + 1) % 256 = n + 1 := by omega
    rw [List.replicate_succ', ring_run_append]
    generalize ring_run (ring_start initial_globals) (List.replicate n (RingOp.rx 0)) = t at ih'
    simp only [ring_run, List.foldl_cons, List.foldl_nil, ring_step, ih']
    simp only [uart_rx_callback, next_idx_eq, initial_globals, ne_eq, hne,
      not_false_eq_true, if_true, List.set_replicate_self, hmod, Nat.succ_ne_zero]

/-- The full state used against C5 is the state after 255 deliveries of the
byte 0 into the initial, empty buffer. -/
theorem full_globals_reachable :
    (ring_run (ring_start initial_globals) (List.replicate 255 (RingOp.rx 0))).state =
      full_globals :=
  rx_zero_run 255 (Nat.le_refl 255)

/-! ## Formatting helpers: proofs -/

theorem tdiv_ten (v : Int) : v.tdiv 10 = if 0 ≤ v then v / 10 else -((-v) / 10) := by
  split
  · rename_i h
    exact Int.tdiv_eq_ediv h (by decide)
  · rename_i h
    have h2 : v = -(-v) := by omega
    rw [h2, Int.neg_tdiv, Int.tdiv_eq_ediv (by omega) (by decide)]
    simp

theorem tmod_ten (v : Int) : v.tmod 10 = if 0 ≤ v then v % 10 else -((-v) % 10) := by
  have h1 := Int.tmod_def v 10
  have h2 := tdiv_ten v
  rw [h1, h2]
  split <;> omega

theorem lsb_digits_small (base n : Nat) (hb : 2 ≤ base) (h : n / base = 0) :
    lsb_digits base n = [n % base] := by
  have hlt : n < base := (Nat.div_eq_zero_iff (by omega)).mp h
  unfold lsb_digits
  split
  · rename_i h0
    simp [h0]
  · rename_i h0
    rw [Nat.digits_def' (by omega) (Nat.pos_of_ne_zero h0), h, Nat.digits_zero]

theorem lsb_digits_large (base n : Nat) (hb : 2 ≤ base) (h : 0 < n / base) :
    lsb_digits base n = n % base :: lsb_digits base (n / base) := by
  have hn : n ≠ 0 := by
    intro h0
    rw [h0, Nat.zero_div] at h
    exact Nat.lt_irrefl 0 h
  unfold lsb_digits
  rw [if_neg hn, if_neg (Nat.pos_iff_ne_zero.mp h),
    Nat.digits_def' (by omega) (Nat.pos_of_ne_zero hn)]

theorem take_set_succ (l : List Nat) (i c : Nat) (h : i < l.length) :
    (l.set i c).take (i + 1) = l.take i ++ [c] := by
  induction l generalizing i with
  | nil => simp at h
  | cons a l ih =>
    cases i with
    | zero => simp
    | succ i =>
      simp only [List.length_cons, Nat.add_lt_add_iff_right] at h
      simp only [List.set_cons_succ, List.take_succ_cons, List.cons_append, ih i h]

theorem digit_loop_spec (base : Nat) (hb : 2 ≤ base) (dig : Nat → Nat)
    (loop : Nat → List Nat → Nat → List Nat × Nat)
    (hloop : ∀ v temp i, loop v temp i =
      if 0 < v / base then loop (v / base) (temp.set i (dig (v % base))) (i + 1)
      else (temp.set i (dig (v % base)), i + 1))
    (v : Nat) (temp : List Nat) (i : Nat)
    (hroom : i + (lsb_digits base v).length ≤ temp.length) :
    (loop v temp i).2 = i + (lsb_digits base v).length ∧
    (loop v temp i).1.length = temp.length ∧
    (loop v temp i).1.take (loop v temp i).2 =
      temp.take i ++ (lsb_digits base v).map dig := by
  induction v using Nat.strong_induction_on generalizing temp i with
  | _ v ih =>
    rw [hloop v temp i]
    by_cases h : 0 < v / base
    · rw [if_pos h]
      have hl := lsb_digits_large base v hb h
      rw [hl] at hroom ⊢
      simp only [List.length_cons] at hroom
      have hlt : v / base < v := Nat.div_lt_self (by
        rcases Nat.eq_zero_or_pos v with h0 | h0
        · rw [h0, Nat.zero_div] at h; exact absurd h (Nat.lt_irrefl 0)
        · exact h0) (by omega)
      obtain ⟨h1, h2, h3⟩ := ih (v / base) hlt (temp.set i (dig (v % base))) (i + 1)
        (by rw [List.length_set]; omega)
      refine ⟨?_, ?_, ?_⟩
      · rw [h1, List.length_cons]; omega
      · rw [h2, List.length_set]
      · rw [h3, take_set_succ temp i _ (by omega)]
        simp
    · rw [if_neg h]
      have hl := lsb_digits_small base v hb (Nat.eq_zero_of_not_pos h)
      rw [hl] at hroom ⊢
      simp only [List.length_cons, List.length_nil] at hroom
      refine ⟨by simp, by simp, ?_⟩
      simp only [List.map_cons, List.map_nil]
      exact take_set_succ temp i _ (by omega)

theorem reverse_copy_spec (temp : List Nat) (i : Nat) (str : List Nat) (j : Nat)
    (hi : i ≤ temp.length) (hroom : j + i ≤ str.length) :
    (reverse_copy temp i str j).2 = j + i ∧
    (reverse_copy temp i str j).1.length = str.length ∧
    (reverse_copy temp i str j).1.take (j + i) = str.take j ++ (temp.take i).reverse := by
  induction i generalizing str j with
  | zero => simp [reverse_copy]
  | succ i ih =>
    obtain ⟨h1, h2, h3⟩ := ih (str.set j (temp.getD i 0)) (j + 1) (by omega)
      (by rw [List.length_set]; omega)
    have hj : j + 1 + i = j + (i + 1) := by omega
    rw [hj] at h1 h3
    simp only [reverse_copy]
    refine ⟨h1, by rw [h2, List.length_set], ?_⟩
    rw [h3, take_set_succ str j _ (by omega)]
    have ht : temp.take (i + 1) = temp.take i ++ [temp.getD i 0] := by
      rw [List.take_succ, List.getD_eq_getElem?_getD, List.getElem?_eq_getElem (by omega)]
      rfl
    rw [ht, List.reverse_append]
    simp

theorem takeWhile_terminated (l r : List Nat) (h : ∀ c ∈ l, c ≠ 0) :
    (l ++ 0 :: r).takeWhile (fun c => c != 0) = l := by
  induction l with
  | nil => simp
  | cons a l ih =>
    have ha : a ≠ 0 := h a (List.mem_cons_self a l)
    have := ih (fun c hc => h c (List.mem_cons_of_mem a hc))
    simp [List.takeWhile_cons, ha, this]

theorem c_string_terminated (buf : List Nat) (n : Nat) (hn : n < buf.length)
    (h : ∀ c ∈ buf.take n, c ≠ 0) :
    c_string (buf.set n 0) = buf.take n ∧
    buf.set n 0 = buf.take n ++ 0 :: buf.drop (n + 1) := by
  have hset : buf.set n 0 = buf.take n ++ 0 :: buf.drop (n + 1) := by
    rw [List.set_eq_take_append_cons_drop, if_pos hn]
  refine ⟨?_, hset⟩
  rw [hset]
  exact takeWhile_terminated _ _ h

theorem lsb_digits_ne_nil (base v : Nat) : lsb_digits base v ≠ [] := by
  unfold lsb_digits
  split
  · simp
  · rename_i h
    exact Nat.digits_ne_nil_iff_ne_zero.mpr h

theorem lsb_digits_length_le (base v k : Nat) (hb : 2 ≤ base) (hk : 1 ≤ k)
    (hv : v < base ^ k) : (lsb_digits base v).length ≤ k := by
  unfold lsb_digits
  split
  · simpa using hk
  · rename_i h
    have h1 := Nat.base_pow_length_digits_le base v (by omega) h
    have h2 : base * v < base ^ (k + 1) := by
      rw [Nat.pow_succ, Nat.mul_comm]
      exact Nat.mul_lt_mul_of_pos_right hv (by omega)
    have h3 : base ^ (Nat.digits base v).length < base ^ (k + 1) := Nat.lt_of_le_of_lt h1 h2
    have h4 := (Nat.pow_lt_pow_iff_right (by omega : 1 < base)).mp h3
    omega

theorem lsb_digits_lt_base (base v : Nat) (hb : 2 ≤ base) :
    ∀ d ∈ lsb_digits base v, d < base := by
  intro d hd
  unfold lsb_digits at hd
  split at hd
  · have : d = 0 := by simpa using hd
    omega
  · exact Nat.digits_lt_base (by omega) hd

theorem lsb_digits_value (base v : Nat) : Nat.ofDigits base (lsb_digits base v) = v := by
  unfold lsb_digits
  split
  · rename_i h
    simp [h, Nat.ofDigits]
  · exact Nat.ofDigits_digits base v

theorem lsb_digits_last (base v : Nat) (h : (lsb_digits base v).getLast? = some 0) :
    lsb_digits base v = [0] := by
  unfold lsb_digits at h ⊢
  split
  · rfl
  · rename_i hv
    rw [if_neg hv] at h
    have hne := Nat.getLast_digit_ne_zero base hv
    rw [List.getLast?_eq_getLast _ (Nat.digits_ne_nil_iff_ne_zero.mpr hv)] at h
    exact absurd (Option.some.inj h) hne

theorem hex_chars_facts : ∀ d, d < 16 →
    is_hex_char (hex_chars.getD d 0) = true ∧ hex_digit_value (hex_chars.getD d 0) = d ∧
    hex_chars.getD d 0 ≠ 0 ∧ (hex_chars.getD d 0 = 48 → d = 0) := by
  decide

theorem shr4 (v : Nat) : v >>> 4 = v / 16 := by
  rw [Nat.shiftRight_eq_div_pow]

theorem and15 (v : Nat) : v &&& 0xF = v % 16 := by
  have := Nat.and_pow_two_sub_one_eq_mod v 4
  simpa using this

theorem utoa_hex_loop_eq (v : Nat) (temp : List Nat) (i : Nat) :
    utoa_hex_loop v temp i =
      if 0 < v / 16 then
        utoa_hex_loop (v / 16) (temp.set i (hex_chars.getD (v % 16) 0)) (i + 1)
      else (temp.set i (hex_chars.getD (v % 16) 0), i + 1) := by
  rw [utoa_hex_loop]
  simp only [shr4, and15, dite_eq_ite]

theorem foldr_digits (base : Nat) (dig val : Nat → Nat) (ds : List Nat)
    (h : ∀ d ∈ ds, val (dig d) = d) :
    (ds.map dig).foldr (fun c acc => base * acc + val c) 0 = Nat.ofDigits base ds := by
  induction ds with
  | nil => rfl
  | cons d ds ih =>
    have hd := h d (List.mem_cons_self d ds)
    have := ih (fun x hx => h x (List.mem_cons_of_mem d hx))
    simp only [List.map_cons, List.foldr_cons, this, hd, Nat.ofDigits_cons]
    omega

theorem reverse_terminate_spec (temp : List Nat) (i : Nat) (str : List Nat)
    (hi : i ≤ temp.length) (hroom : i < str.length) (hnz : ∀ c ∈ temp.take i, c ≠ 0) :
    c_string ((reverse_copy temp i str 0).1.set (reverse_copy temp i str 0).2 0) =
      (temp.take i).reverse ∧
    ((reverse_copy temp i str 0).1.set (reverse_copy temp i str 0).2 0).length = str.length ∧
    ((reverse_copy temp i str 0).1.set (reverse_copy temp i str 0).2 0).getD i 0 = 0 := by
  obtain ⟨g1, g2, g3⟩ := reverse_copy_spec temp i str 0 hi (by omega)
  simp only [Nat.zero_add, List.take_zero, List.nil_append] at g1 g3
  rw [g1]
  have hnz' : ∀ c ∈ (reverse_copy temp i str 0).1.take i, c ≠ 0 := by
    rw [g3]
    intro c hc
    exact hnz c (List.mem_reverse.mp hc)
  obtain ⟨c1, _⟩ := c_string_terminated _ i (by rw [g2]; exact hroom) hnz'
  refine ⟨by rw [c1, g3], by rw [List.length_set, g2], ?_⟩
  rw [List.getD_eq_getElem?_getD, List.getElem?_set_self (by rw [g2]; exact hroom)]
  rfl

/-- The characters `utoa_hex` leaves in `str`, as a function of `value`. -/
theorem utoa_hex_string (value : Nat) (temp str : List Nat)
    (hv : value < 4294967296) (ht : temp.length = 9) (hs : 9 ≤ str.length) :
    c_string (utoa_hex value temp str) =
      ((lsb_digits 16 value).map (fun d => hex_chars.getD d 0)).reverse ∧
    (utoa_hex value temp str).length = str.length ∧
    (utoa_hex value temp str).getD (c_string (utoa_hex value temp str)).length 0 = 0 := by
  have hlen : (lsb_digits 16 value).length ≤ 8 :=
    lsb_digits_length_le 16 value 8 (by decide) (by decide) (by simpa using hv)
  obtain ⟨h1, h2, h3⟩ := digit_loop_spec 16 (by decide) (fun d => hex_chars.getD d 0)
    utoa_hex_loop utoa_hex_loop_eq value temp 0 (by omega)
  simp only [Nat.zero_add, List.take_zero, List.nil_append] at h1 h3
  have hnz : ∀ c ∈ (utoa_hex_loop value temp 0).1.take (utoa_hex_loop value temp 0).2,
      c ≠ 0 := by
    rw [h3]
    intro c hc
    obtain ⟨d, hd, rfl⟩ := List.mem_map.mp hc
    exact (hex_chars_facts d (lsb_digits_lt_base 16 value (by decide) d hd)).2.2.1
  obtain ⟨c1, c2, c3⟩ := reverse_terminate_spec (utoa_hex_loop value temp 0).1
    (utoa_hex_loop value temp 0).2 str (by rw [h1, h2]; omega) (by rw [h1]; omega) hnz
  have hout : utoa_hex value temp str =
      (reverse_copy (utoa_hex_loop value temp 0).1 (utoa_hex_loop value temp 0).2 str 0).1.set
        (reverse_copy (utoa_hex_loop value temp 0).1 (utoa_hex_loop value temp 0).2 str 0).2
        0 := by
    simp only [utoa_hex]
  rw [hout, c1, h3]
  refine ⟨rfl, c2, ?_⟩
  rw [List.length_reverse, List.length_map, ← h1]
  exact c3

theorem parse_hex_digits (ds : List Nat) (hne : ds ≠ []) (hlt : ∀ d ∈ ds, d < 16) :
    parse_hex (ds.map (fun d => hex_chars.getD d 0)).reverse = some (Nat.ofDigits 16 ds) := by
  have hall : ((ds.map (fun d => hex_chars.getD d 0)).reverse).all is_hex_char = true := by
    rw [List.all_eq_true]
    intro c hc
    obtain ⟨d, hd, rfl⟩ := List.mem_map.mp (List.mem_reverse.mp hc)
    exact (hex_chars_facts d (hlt d hd)).1
  have hnil : (ds.map (fun d => hex_chars.getD d 0)).reverse ≠ [] := by
    simpa using hne
  unfold parse_hex
  rw [if_pos ⟨hnil, hall⟩, List.foldl_reverse]
  exact congrArg some (foldr_digits 16 (fun d => hex_chars.getD d 0) hex_digit_value ds
    (fun d hd => (hex_chars_facts d (hlt d hd)).2.1))

/-- C7: for every `uint32_t` value, `utoa_hex` leaves in `str` a null-terminated
string of 1 to 8 characters drawn from `0`-`9`, `A`-`F`, without leading zeros
(`"0"` for 0), that reads back in base 16 as `value`. -/
theorem utoa_hex_correct (value : Nat) (temp str : List Nat)
    (hv : value < 4294967296) (ht : temp.length = 9) (hs : 9 ≤ str.length) :
    (utoa_hex value temp str).length = str.length ∧
    (utoa_hex value temp str).getD (c_string (utoa_hex value temp str)).length 0 = 0 ∧
    1 ≤ (c_string (utoa_hex value temp str)).length ∧
    (c_string (utoa_hex value temp str)).length ≤ 8 ∧
    (c_string (utoa_hex value temp str)).all is_hex_char = true ∧
    ((c_string (utoa_hex value temp str)).head? = some 48 →
      c_string (utoa_hex value temp str) = [48]) ∧
    (value = 0 → c_string (utoa_hex value temp str) = [48]) ∧
    parse_hex (c_string (utoa_hex value temp str)) = some value := by
  obtain ⟨h1, h2, h3⟩ := utoa_hex_string value temp str hv ht hs
  have hlen : (lsb_digits 16 value).length ≤ 8 :=
    lsb_digits_length_le 16 value 8 (by decide) (by decide) (by simpa using hv)
  have hne := lsb_digits_ne_nil 16 value
  have hlt := lsb_digits_lt_base 16 value (by decide)
  have hpos : 1 ≤ (lsb_digits 16 value).length := by
    rcases hd : lsb_digits 16 value with _ | ⟨a, l⟩
    · exact absurd hd hne
    · simp
  refine ⟨h2, h3, ?_, ?_, ?_, ?_, ?_, ?_⟩
  · rw [h1, List.length_reverse, List.length_map]; exact hpos
  · rw [h1, List.length_reverse, List.length_map]; exact hlen
  · rw [h1, List.all_eq_true]
    intro c hc
    obtain ⟨d, hd, rfl⟩ := List.mem_map.mp (List.mem_reverse.mp hc)
    exact (hex_chars_facts d (hlt d hd)).1
  · rw [h1, List.head?_reverse, List.getLast?_map]
    intro h
    rcases hl : (lsb_digits 16 value).getLast? with _ | d
    · rw [hl] at h; simp at h
    · rw [hl] at h
      have hmem : d ∈ lsb_digits 16 value := List.mem_of_getLast?_eq_some hl
      have hd0 : d = 0 := (hex_chars_facts d (hlt d hmem)).2.2.2 (by simpa using h)
      rw [hd0] at hl
      rw [lsb_digits_last 16 value hl]
      rfl
  · intro h0
    rw [h1, h0]
    rfl
  · rw [h1, parse_hex_digits _ hne hlt, lsb_digits_value]

theorem utoa_hex_correct_witness :
    (416 : Nat) < 4294967296 ∧ (List.replicate 9 0).length = 9 ∧
    9 ≤ (List.replicate 16 0).length ∧
    (c_string (utoa_hex 416 (List.replicate 9 0) (List.replicate 16 0))).length ≤ 8 ∧
    parse_hex (c_string (utoa_hex 416 (List.replicate 9 0) (List.replicate 16 0))) = some 416 :=
  ⟨by decide, by decide, by decide,
    (utoa_hex_correct 416 (List.replicate 9 0) (List.replicate 16 0)
      (by decide) (by decide) (by decide)).2.2.2.1,
    (utoa_hex_correct 416 (List.replicate 9 0) (List.replicate 16 0)
      (by decide) (by decide) (by decide)).2.2.2.2.2.2.2⟩

theorem itoa_decimal_eq (value : Int) (temp str : List Nat) :
    itoa_decimal value temp str =
      sign_and_reverse (decide (value < 0))
        (itoa_decimal_loop (if value < 0 then wrap_int32 (-value) else value) temp 0) str := by
  simp only [itoa_decimal, sign_and_reverse]

theorem sign_and_reverse_spec (is_negative : Bool) (temp : List Nat) (i : Nat) (str : List Nat)
    (hi : i + 1 ≤ temp.length) (hroom : i + 1 < str.length)
    (hnz : ∀ c ∈ temp.take i, c ≠ 0) :
    c_string (sign_and_reverse is_negative (temp, i) str) =
      (if is_negative = true then [45] else []) ++ (temp.take i).reverse ∧
    (sign_and_reverse is_negative (temp, i) str).length = str.length ∧
    (sign_and_reverse is_negative (temp, i) str).getD
      (c_string (sign_and_reverse is_negative (temp, i) str)).length 0 = 0 := by
  cases is_negative with
  | false =>
    obtain ⟨c1, c2, c3⟩ := reverse_terminate_spec temp i str (by omega) (by omega) hnz
    simp only [sign_and_reverse, Bool.false_eq_true, if_false, List.nil_append]
    refine ⟨c1, c2, ?_⟩
    rw [c1, List.length_reverse, List.length_take, Nat.min_eq_left (by omega)]
    exact c3
  | true =>
    have ht : (temp.set i 45).take (i + 1) = temp.take i ++ [45] :=
      take_set_succ temp i 45 (by omega)
    have hnz' : ∀ c ∈ (temp.set i 45).take (i + 1), c ≠ 0 := by
      rw [ht]
      intro c hc
      rcases List.mem_append.mp hc with h | h
      · exact hnz c h
      · have : c = 45 := by simpa using h
        omega
    obtain ⟨c1, c2, c3⟩ := reverse_terminate_spec (temp.set i 45) (i + 1) str
      (by rw [List.length_set]; omega) hroom hnz'
    simp only [sign_and_reverse, if_true]
    rw [ht] at c1
    simp only [List.reverse_append, List.reverse_cons, List.reverse_nil, List.nil_append,
      List.singleton_append] at c1
    refine ⟨by rw [c1]; rfl, c2, ?_⟩
    rw [c1, List.length_cons, List.length_reverse, List.length_take, Nat.min_eq_left (by omega)]
    exact c3

theorem itoa_decimal_loop_eq (v : Nat) (temp : List Nat) (i : Nat) :
    itoa_decimal_loop (v : Int) temp i =
      if 0 < v / 10 then
        itoa_decimal_loop ((v / 10 : Nat) : Int) (temp.set i (48 + v % 10)) (i + 1)
      else (temp.set i (48 + v % 10), i + 1) := by
  rw [itoa_decimal_loop]
  have h1 : (v : Int).tdiv 10 = ((v / 10 : Nat) : Int) := by
    rw [tdiv_ten]; split <;> omega
  have h2 : to_char (48 + (v : Int).tmod 10) = 48 + v % 10 := by
    rw [tmod_ten]; unfold to_char; split <;> omega
  rw [h1, h2]
  by_cases h : 0 < v / 10
  · have h' : (0 : Int) < ((v / 10 : Nat) : Int) := by omega
    rw [dif_pos h', if_pos h]
  · have h' : ¬ (0 : Int) < ((v / 10 : Nat) : Int) := by omega
    rw [dif_neg h', if_neg h]

theorem dec_digit_facts : ∀ d, d < 10 →
    is_digit_char (48 + d) = true ∧ (48 + d) - 48 = d ∧ 48 + d ≠ 0 ∧ 48 + d ≠ 45 ∧
    (48 + d = 48 → d = 0) := by
  decide

theorem parse_digits_digits (ds : List Nat) :
    parse_digits (ds.map (fun d => 48 + d)).reverse = Nat.ofDigits 10 ds := by
  unfold parse_digits
  rw [List.foldl_reverse]
  exact foldr_digits 10 (fun d => 48 + d) (fun c => c - 48) ds (fun d _ => by simp)

/-- The string `itoa_decimal` leaves in `str` when the magnitude of `value`
is representable: an optional sign and the decimal digits of the magnitude. -/
theorem itoa_decimal_string (value : Int) (temp str : List Nat)
    (hlo : -2147483648 < value) (hhi : value ≤ 2147483647)
    (ht : temp.length = 12) (hs : 12 ≤ str.length) :
    c_string (itoa_decimal value temp str) =
      (if value < 0 then [45] else []) ++
        ((lsb_digits 10 value.natAbs).map (fun d => 48 + d)).reverse ∧
    (itoa_decimal value temp str).length = str.length ∧
    (itoa_decimal value temp str).getD (c_string (itoa_decimal value temp str)).length 0 = 0 := by
  have hmag : (if value < 0 then wrap_int32 (-value) else value) = (value.natAbs : Int) := by
    unfold wrap_int32
    split <;> omega
  have hlen : (lsb_digits 10 value.natAbs).length ≤ 10 :=
    lsb_digits_length_le 10 value.natAbs 10 (by decide) (by decide) (by omega)
  obtain ⟨h1, h2, h3⟩ := digit_loop_spec 10 (by decide) (fun d => 48 + d)
    (fun n t i => itoa_decimal_loop (n : Int) t i) itoa_decimal_loop_eq value.natAbs temp 0
    (by omega)
  simp only [Nat.zero_add, List.take_zero, List.nil_append] at h1 h3
  have hnz : ∀ c ∈ (itoa_decimal_loop (value.natAbs : Int) temp 0).1.take
      (itoa_decimal_loop (value.natAbs : Int) temp 0).2, c ≠ 0 := by
    rw [h3]
    intro c hc
    obtain ⟨d, _, rfl⟩ := List.mem_map.mp hc
    omega
  have hsr := sign_and_reverse_spec (decide (value < 0))
    (itoa_decimal_loop (value.natAbs : Int) temp 0).1
    (itoa_decimal_loop (value.natAbs : Int) temp 0).2 str
    (by rw [h1, h2]; omega) (by rw [h1]; omega) hnz
  rw [itoa_decimal_eq, hmag]
  rw [h3] at hsr
  simpa using hsr

theorem dec_chars_facts (n : Nat) :
    dec_chars n ≠ [] ∧ (dec_chars n).all is_digit_char = true ∧
    ((dec_chars n).head? = some 48 → n = 0 ∧ dec_chars n = [48]) ∧
    (dec_chars n).head? ≠ some 45 ∧ parse_digits (dec_chars n) = n ∧
    (dec_chars n).length = (lsb_digits 10 n).length := by
  have hne := lsb_digits_ne_nil 10 n
  have hlt := lsb_digits_lt_base 10 n (by decide)
  have hhead : ∀ c, (dec_chars n).head? = some c →
      ∃ d, (lsb_digits 10 n).getLast? = some d ∧ d < 10 ∧ c = 48 + d := by
    intro c hc
    unfold dec_chars at hc
    rw [List.head?_reverse, List.getLast?_map] at hc
    rcases hl : (lsb_digits 10 n).getLast? with _ | d
    · rw [hl] at hc; simp at hc
    · rw [hl] at hc
      exact ⟨d, rfl, hlt d (List.mem_of_getLast?_eq_some hl), by simpa using hc.symm⟩
  refine ⟨?_, ?_, ?_, ?_, ?_, ?_⟩
  · unfold dec_chars; simpa using hne
  · unfold dec_chars
    rw [List.all_eq_true]
    intro c hc
    obtain ⟨d, hd, rfl⟩ := List.mem_map.mp (List.mem_reverse.mp hc)
    exact (dec_digit_facts d (hlt d hd)).1
  · intro h
    obtain ⟨d, hl, _, hd⟩ := hhead 48 h
    have hd0 : d = 0 := by omega
    rw [hd0] at hl
    have hds := lsb_digits_last 10 n hl
    have hv := lsb_digits_value 10 n
    rw [hds] at hv
    refine ⟨by simpa [Nat.ofDigits] using hv.symm, ?_⟩
    unfold dec_chars
    rw [hds]
    rfl
  · intro h
    obtain ⟨d, _, _, hd⟩ := hhead 45 h
    omega
  · unfold dec_chars
    rw [parse_digits_digits, lsb_digits_value]
  · unfold dec_chars
    rw [List.length_reverse, List.length_map]

/-- Away from the minimum, `itoa_decimal` writes the canonical decimal text of
`value`, null-terminated, at most 11 characters long, and it reads back as
`value`. -/
theorem itoa_decimal_correct (value : Int) (temp str : List Nat)
    (hlo : -2147483648 < value) (hhi : value ≤ 2147483647)
    (ht : temp.length = 12) (hs : 12 ≤ str.length) :
    (itoa_decimal value temp str).length = str.length ∧
    (itoa_decimal value temp str).getD (c_string (itoa_decimal value temp str)).length 0 = 0 ∧
    (c_string (itoa_decimal value temp str)).length ≤ 11 ∧
    canonical_decimal (c_string (itoa_decimal value temp str)) ∧
    parse_decimal (c_string (itoa_decimal value temp str)) = some value := by
  obtain ⟨h1, h2, h3⟩ := itoa_decimal_string value temp str hlo hhi ht hs
  obtain ⟨d1, d2, d3, d4, d5, d6⟩ := dec_chars_facts value.natAbs
  have hlen : (lsb_digits 10 value.natAbs).length ≤ 10 :=
    lsb_digits_length_le 10 value.natAbs 10 (by decide) (by decide) (by omega)
  have h1' : c_string (itoa_decimal value temp str) =
      (if value < 0 then [45] else []) ++ dec_chars value.natAbs := h1
  refine ⟨h2, h3, ?_, ?_, ?_⟩
  · rw [h1', List.length_append, d6]
    split <;> simp <;> omega
  · rw [h1']
    by_cases hneg : value < 0
    · rw [if_pos hneg]
      unfold canonical_decimal
      rw [if_pos (by rfl)]
      refine ⟨d1, d2, ?_⟩
      intro h
      have := (d3 h).1
      omega
    · rw [if_neg hneg]
      unfold canonical_decimal
      rw [List.nil_append, if_neg d4]
      exact ⟨d1, d2, fun h => (d3 h).2⟩
  · rw [h1']
    by_cases hneg : value < 0
    · rw [if_pos hneg]
      unfold parse_decimal
      rw [if_pos (by rfl)]
      simp only [List.singleton_append, List.tail_cons]
      rw [if_pos ⟨d1, d2⟩, d5]
      congr 1
      omega
    · rw [if_neg hneg]
      unfold parse_decimal
      rw [List.nil_append, if_neg d4, if_pos ⟨d1, d2⟩, d5]
      congr 1
      omega

theorem itoa_decimal_correct_witness :
    (-2147483648 : Int) < -120 ∧ (-120 : Int) ≤ 2147483647 ∧
    (List.replicate 12 0).length = 12 ∧ 12 ≤ (List.replicate 16 0).length ∧
    parse_decimal (c_string (itoa_decimal (-120) (List.replicate 12 0) (List.replicate 16 0))) =
      some (-120) :=
  ⟨by decide, by decide, by decide, by decide,
    (itoa_decimal_correct (-120) (List.replicate 12 0) (List.replicate 16 0)
      (by decide) (by decide) (by decide) (by decide)).2.2.2.2⟩

theorem itoa_decimal_loop_int_min (temp : List Nat) :
    itoa_decimal_loop (-2147483648) temp 0 = (temp.set 0 40, 1) := by
  rw [itoa_decimal_loop]
  have h1 : ¬ (0 : Int) < Int.tdiv (-2147483648) 10 := by decide
  have h2 : to_char (48 + Int.tmod (-2147483648) 10) = 40 := by decide
  rw [dif_neg h1, h2]

/-- C6 at the minimum: for `value = -2147483648` the negation wraps back to the
minimum, the digit loop runs once on a negative number, and the string written
is `-(`, which is not a decimal numeral. -/
theorem itoa_decimal_int_min (temp str : List Nat)
    (ht : temp.length = 12) (hs : 12 ≤ str.length) :
    c_string (itoa_decimal (-2147483648) temp str) = [45, 40] ∧
    ¬ canonical_decimal (c_string (itoa_decimal (-2147483648) temp str)) ∧
    parse_decimal (c_string (itoa_decimal (-2147483648) temp str)) ≠ some (-2147483648) := by
  have hw : (if (-2147483648 : Int) < 0 then wrap_int32 (-(-2147483648)) else -2147483648) =
      -2147483648 := by decide
  have hsr := sign_and_reverse_spec true (temp.set 0 40) 1 str
    (by rw [List.length_set]; omega) (by omega)
    (by
      intro c hc
      have ht1 := take_set_succ temp 0 40 (by omega)
      rw [Nat.zero_add] at ht1
      rw [ht1] at hc
      have : c = 40 := by simpa using hc
      omega)
  have hc : c_string (itoa_decimal (-2147483648) temp str) = [45, 40] := by
    rw [itoa_decimal_eq, hw, itoa_decimal_loop_int_min]
    have hd : decide ((-2147483648 : Int) < 0) = true := by decide
    rw [hd, hsr.1]
    have ht1 := take_set_succ temp 0 40 (by omega)
    rw [Nat.zero_add] at ht1
    rw [ht1]
    rfl
  rw [hc]
  exact ⟨rfl, by decide, by decide⟩

theorem itoa_decimal_int_min_witness :
    (List.replicate 12 0).length = 12 ∧ 12 ≤ (List.replicate 16 0).length ∧
    c_string (itoa_decimal (-2147483648) (List.replicate 12 0) (List.replicate 16 0)) =
      [45, 40] :=
  ⟨by decide, by decide,
    (itoa_decimal_int_min (List.replicate 12 0) (List.replicate 16 0)
      (by decide) (by decide)).1⟩

/-! ## Threshold-batched transfer: proofs -/

theorem accepted_bytes_append (l m : List (DriverCall × Int)) :
    accepted_bytes (l ++ m) = accepted_bytes l ++ accepted_bytes m := by
  simp only [accepted_bytes, List.filterMap_append]

theorem accepted_bytes_put_ok (b : Nat) :
    accepted_bytes [(DriverCall.uart_putc_nonblocking b, 0)] = [b] := rfl

theorem accepted_bytes_put_fail (b : Nat) (r : Int) (h : r ≠ 0) :
    accepted_bytes [(DriverCall.uart_putc_nonblocking b, r)] = [] := by
  simp [accepted_bytes, accepted_byte, h]

theorem put_attempts_append (l : List (DriverCall × Int)) (e : DriverCall × Int) :
    put_attempts (l ++ [e]) =
      match e.1 with
      | DriverCall.uart_tx_threshold_reached => (0, (put_attempts l).2)
      | DriverCall.uart_putc_nonblocking _ =>
        ((put_attempts l).1 + 1, max (put_attempts l).2 ((put_attempts l).1 + 1))
      | _ => put_attempts l := by
  simp only [put_attempts, List.foldl_append, List.foldl_cons, List.foldl_nil]

theorem offers_in_order_append (tb : List Nat) (l : List (DriverCall × Int))
    (e : DriverCall × Int) (k : Nat) :
    offers_in_order tb (l ++ [e]) k ↔
      offers_in_order tb l k ∧
        ∀ b, e.1 = DriverCall.uart_putc_nonblocking b →
          b = tb.getD (k + (accepted_bytes l).length) 0 := by
  induction l generalizing k with
  | nil =>
    show ((∀ b, e.1 = DriverCall.uart_putc_nonblocking b → b = tb.getD k 0) ∧ True) ↔ _
    simp [offers_in_order, accepted_bytes]
  | cons x l ih =>
    have hk : k + (accepted_bytes [x]).length + (accepted_bytes l).length =
        k + (accepted_bytes (x :: l)).length := by
      have := accepted_bytes_append [x] l
      rw [List.singleton_append] at this
      rw [this, List.length_append]
      omega
    show ((∀ b, x.1 = DriverCall.uart_putc_nonblocking b → b = tb.getD k 0) ∧
      offers_in_order tb (l ++ [e]) (k + (accepted_bytes [x]).length)) ↔ _
    rw [ih, hk]
    show _ ↔ ((∀ b, x.1 = DriverCall.uart_putc_nonblocking b → b = tb.getD k 0) ∧
      offers_in_order tb l (k + (accepted_bytes [x]).length)) ∧ _
    rw [and_assoc]

theorem tx_pattern_length : tx_pattern.length = 64 := by
  simp [tx_pattern]

theorem tx_pattern_take_succ (k : Nat) (hk : k < 64) :
    tx_pattern.take (k + 1) = tx_pattern.take k ++ [tx_pattern.getD k 0] := by
  rw [List.take_succ, List.getD_eq_getElem?_getD,
    List.getElem?_eq_getElem (by rw [tx_pattern_length]; exact hk)]
  rfl

theorem core_with_pending (s : Transfer) (p : Pending) (h : TransferCore s) :
    TransferCore { s with pending := p } :=
  ⟨h.buffer, h.tx_le, h.rx_le, h.accepted, h.ordered, h.attempts⟩

theorem outer_test_inv (s : Transfer) (h : TransferCore s) : TransferInv (outer_test s) := by
  unfold outer_test
  split
  · exact ⟨core_with_pending s _ h, fun i hi => (by cases hi), fun hi => (by cases hi),
      fun hi => (by cases hi)⟩
  · rename_i hlt
    refine ⟨core_with_pending s _ h, fun i hi => (by cases hi), fun hi => (by cases hi),
      fun _ => ?_⟩
    have := h.tx_le
    show s.tx_sent = 64
    omega

theorem for_test_inv (i : Nat) (s : Transfer) (h : TransferCore s)
    (hi : (put_attempts s.trace).1 = i) : TransferInv (for_test i s) := by
  unfold for_test
  split
  · rename_i hc
    refine ⟨core_with_pending s _ h, fun j hj => ?_, fun hj => (by cases hj),
      fun hj => (by cases hj)⟩
    have hij : i = j := by
      have : Pending.putc i = Pending.putc j := hj
      exact Pending.putc.inj this
    subst hij
    exact ⟨hi, hc.1, hc.2⟩
  · exact ⟨core_with_pending s _ h, fun j hj => (by cases hj), fun hj => (by cases hj),
      fun hj => (by cases hj)⟩

/-- Logging a call other than a put keeps the core facts; a
`uart_tx_threshold_reached` call resets the per-pass count. -/
theorem core_log_other (s : Transfer) (c : DriverCall) (r : Int) (h : TransferCore s)
    (hc : ∀ b, c ≠ DriverCall.uart_putc_nonblocking b) :
    TransferCore { s with trace := s.trace ++ [(c, r)] } := by
  have hacc : accepted_bytes [(c, r)] = [] := by
    cases c <;> first | rfl | exact absurd rfl (hc _)
  refine ⟨h.buffer, h.tx_le, h.rx_le, ?_, ?_, ?_⟩
  · show accepted_bytes (s.trace ++ [(c, r)]) = _
    rw [accepted_bytes_append, hacc, List.append_nil]
    exact h.accepted
  · show offers_in_order s.tx_buffer (s.trace ++ [(c, r)]) 0
    rw [offers_in_order_append]
    exact ⟨h.ordered, fun b hb => absurd hb (hc b)⟩
  · show (put_attempts (s.trace ++ [(c, r)])).1 ≤ 4 ∧ (put_attempts (s.trace ++ [(c, r)])).2 ≤ 4
    rw [put_attempts_append]
    have := h.attempts
    cases c <;> first | exact this | exact ⟨Nat.zero_le 4, this.2⟩ | exact absurd rfl (hc _)

theorem resume_inv (s : Transfer) (r : Int) (h : TransferInv s) :
    TransferInv (example_threshold_usage_resume s r) := by
  obtain ⟨hcore, hputc, hgetc, hend⟩ := h
  unfold example_threshold_usage_resume
  split
  · -- uart_tx_threshold_reached returned
    have hc := core_log_other s DriverCall.uart_tx_threshold_reached r hcore
      (fun b hb => (by cases hb))
    simp only
    split
    · apply for_test_inv 0 _ hc
      show (put_attempts (s.trace ++ [(DriverCall.uart_tx_threshold_reached, r)])).1 = 0
      rw [put_attempts_append]
    · exact ⟨core_with_pending _ _ hc, fun j hj => (by cases hj), fun hj => (by cases hj),
        fun hj => (by cases hj)⟩
  · -- uart_putc_nonblocking returned
    rename_i i hp
    obtain ⟨hi, hi4, hlt⟩ := hputc i hp
    have hatt : (put_attempts (s.trace ++
        [(DriverCall.uart_putc_nonblocking (s.tx_buffer.getD s.tx_sent 0), r)])).1 = i + 1 := by
      rw [put_attempts_append]
      show (put_attempts s.trace).1 + 1 = i + 1
      rw [hi]
    have hatt2 : (put_attempts (s.trace ++
        [(DriverCall.uart_putc_nonblocking (s.tx_buffer.getD s.tx_sent 0), r)])).2 ≤ 4 := by
      rw [put_attempts_append]
      show max (put_attempts s.trace).2 ((put_attempts s.trace).1 + 1) ≤ 4
      have := hcore.attempts.2
      rw [hi]
      exact Nat.max_le.mpr ⟨this, by omega⟩
    have hord : offers_in_order s.tx_buffer (s.trace ++
        [(DriverCall.uart_putc_nonblocking (s.tx_buffer.getD s.tx_sent 0), r)]) 0 := by
      rw [offers_in_order_append]
      refine ⟨hcore.ordered, fun b hb => ?_⟩
      have hb' : s.tx_buffer.getD s.tx_sent 0 = b := DriverCall.uart_putc_nonblocking.inj hb
      rw [← hb', hcore.accepted, List.length_take, hcore.buffer, tx_pattern_length,
        Nat.zero_add, Nat.min_eq_left (by omega)]
    simp only
    split
    · rename_i hr
      subst hr
      have hmod : (s.tx_sent + 1) % 4294967296 = s.tx_sent + 1 := by omega
      apply for_test_inv (i + 1) _ _ hatt
      refine ⟨hcore.buffer, ?_, hcore.rx_le, ?_, hord, ⟨by rw [hatt]; omega, hatt2⟩⟩
      · show (s.tx_sent + 1) % 4294967296 ≤ 64
        omega
      · show accepted_bytes (s.trace ++ _) = s.tx_buffer.take ((s.tx_sent + 1) % 4294967296)
        rw [hmod, accepted_bytes_append, accepted_bytes_put_ok, hcore.accepted, hcore.buffer,
          tx_pattern_take_succ _ hlt]
    · rename_i hr
      apply for_test_inv (i + 1) _ _ hatt
      refine ⟨hcore.buffer, hcore.tx_le, hcore.rx_le, ?_, hord, ⟨by rw [hatt]; omega, hatt2⟩⟩
      show accepted_bytes (s.trace ++ _) = s.tx_buffer.take s.tx_sent
      rw [accepted_bytes_append, accepted_bytes_put_fail _ r hr, List.append_nil]
      exact hcore.accepted
  · -- uart_rx_threshold_reached returned
    have hc := core_log_other s DriverCall.uart_rx_threshold_reached r hcore
      (fun b hb => (by cases hb))
    simp only
    split
    · exact ⟨core_with_pending _ _ hc, fun j hj => (by cases hj), fun hj => (by cases hj),
        fun hj => (by cases hj)⟩
    · exact outer_test_inv _ hc
  · -- uart_rx_fifo_empty returned
    have hc := core_log_other s DriverCall.uart_rx_fifo_empty r hcore
      (fun b hb => (by cases hb))
    simp only
    split
    · rename_i hcond
      exact ⟨core_with_pending _ _ hc, fun j hj => (by cases hj), fun _ => hcond.2,
        fun hj => (by cases hj)⟩
    · exact outer_test_inv _ hc
  · -- uart_getc_nonblocking returned
    rename_i hp
    have hlt := hgetc hp
    have hc := core_log_other s DriverCall.uart_getc_nonblocking r hcore
      (fun b hb => (by cases hb))
    simp only
    split
    · refine ⟨⟨hc.buffer, hc.tx_le, ?_, hc.accepted, hc.ordered, hc.attempts⟩,
        fun j hj => (by cases hj), fun hj => (by cases hj), fun hj => (by cases hj)⟩
      show (s.rx_received + 1) % 4294967296 ≤ 64
      omega
    · exact ⟨core_with_pending _ _ hc, fun j hj => (by cases hj), fun hj => (by cases hj),
        fun hj => (by cases hj)⟩
  · exact ⟨hcore, hputc, hgetc, hend⟩

theorem transfer_start_inv (rx_buffer : List Nat) :
    TransferInv (example_threshold_usage_entry rx_buffer) := by
  apply outer_test_inv
  exact ⟨rfl, Nat.zero_le 64, Nat.zero_le 64, rfl, trivial, ⟨Nat.zero_le 4, Nat.zero_le 4⟩⟩

theorem transfer_run_inv (results : List Int) (s : Transfer) (h : TransferInv s) :
    TransferInv (example_threshold_usage_run s results) := by
  induction results generalizing s with
  | nil => exact h
  | cons r rs ih => exact ih _ (resume_inv s r h)

theorem tx_pattern_take (k : Nat) (hk : k ≤ 64) : tx_pattern.take k = List.range k := by
  induction k with
  | zero => rfl
  | succ k ih =>
    have hget : tx_pattern.getD k 0 = k := by
      unfold tx_pattern
      rw [List.getD_eq_getElem?_getD, List.getElem?_map,
        List.getElem?_range (by omega)]
      show k % 256 = k
      omega
    rw [tx_pattern_take_succ k (by omega), ih (by omega), hget, List.range_succ]

/-- C8: against every finite sequence of driver results, the bytes accepted by
`uart_putc_nonblocking` are `tx_buffer[0..tx_sent)` in order (the bytes
0, 1, ..., tx_sent-1), every put offers the byte at the index given by the number
of earlier successes (a refused byte is offered again, none is skipped), no pass
of the outer loop makes more than 4 put attempts, `tx_sent` and `rx_received`
never exceed 64, and once the loop has been left `tx_sent = 64`. -/
theorem threshold_transfer_correct (rx_buffer : List Nat) (results : List Int) :
    accepted_bytes (example_threshold_usage rx_buffer results).trace =
      (example_threshold_usage rx_buffer results).tx_buffer.take
        (example_threshold_usage rx_buffer results).tx_sent ∧
    accepted_bytes (example_threshold_usage rx_buffer results).trace =
      List.range (example_threshold_usage rx_buffer results).tx_sent ∧
    offers_in_order (example_threshold_usage rx_buffer results).tx_buffer
      (example_threshold_usage rx_buffer results).trace 0 ∧
    (put_attempts (example_threshold_usage rx_buffer results).trace).1 ≤ 4 ∧
    (put_attempts (example_threshold_usage rx_buffer results).trace).2 ≤ 4 ∧
    (example_threshold_usage rx_buffer results).tx_sent ≤ 64 ∧
    (example_threshold_usage rx_buffer results).rx_received ≤ 64 ∧
    ((example_threshold_usage rx_buffer results).pending = Pending.finished →
      (example_threshold_usage rx_buffer results).tx_sent = 64) := by
  have h : TransferInv (example_threshold_usage rx_buffer results) :=
    transfer_run_inv results _ (transfer_start_inv rx_buffer)
  refine ⟨h.core.accepted, ?_, h.core.ordered, h.core.attempts.1, h.core.attempts.2,
    h.core.tx_le, h.core.rx_le, h.at_end⟩
  rw [h.core.accepted, h.core.buffer]
  exact tx_pattern_take _ h.core.tx_le

set_option maxRecDepth 100000 in
theorem threshold_transfer_correct_witness :
    (example_threshold_usage (List.replicate 64 0)
      (List.replicate 16 [1, 0, 0, 0, 0, 0]).flatten).pending = Pending.finished ∧
    (example_threshold_usage (List.replicate 64 0)
      (List.replicate 16 [1, 0, 0, 0, 0, 0]).flatten).tx_sent = 64 :=
  ⟨by decide,
    (threshold_transfer_correct (List.replicate 64 0)
      (List.replicate 16 [1, 0, 0, 0, 0, 0]).flatten).2.2.2.2.2.2.2 (by decide)⟩

end UartExample
